import Mathlib

/-!
Verification of the marginal-price / merit-order computation in
`TradingAnalytics/tradingExample.py`.

The script's only nontrivial logic is the per-unit marginal price estimator
(lines 57–106) and the merit-order accumulation (lines 111–114).  We embed
that logic shallowly: a unit's datetime-sorted joined series is a
`List Row` (generation after `fill_null(0)`, price after the left join, so
possibly missing), floats are modelled as rationals, and the polars
aggregations (`mean`, `min`, `max` — all of which ignore nulls) are explicit
list functions.
-/

namespace TradingExample

/-- One joined record of a unit's series, in datetime order:
`generation` (after `fill_null(0)`) and the left-joined
`day_ahead_price`, which is missing when no price row matched. -/
structure Row where
  gen : ℚ
  price : Option ℚ
deriving Repr, DecidableEq

/-- Line 65: `(pl.col("generation") / 50).ceil().mul(50)` — round generation
up to the next multiple of 50.  `Rat.ceil` is the mathematical ceiling
(proved below to coincide with `Int.ceil`). -/
def roundGen (g : ℚ) : ℚ := ((g / 50).ceil : ℚ) * 50

/-- Rounding applied to a row (the `with_columns` at lines 64–66). -/
def roundRow (r : Row) : Row := ⟨roundGen r.gen, r.price⟩

/-- polars `Series.max` on a (null-free) series: `none` on an empty series,
otherwise the greatest element. -/
def smax : List ℚ → Option ℚ
  | [] => none
  | x :: xs =>
    some (match smax xs with
          | none => x
          | some m => max x m)

/-- polars `Series.min` on a (null-free) series. -/
def smin : List ℚ → Option ℚ
  | [] => none
  | x :: xs =>
    some (match smin xs with
          | none => x
          | some m => min x m)

/-- Lines 83–90: `is_zero = (generation == 0)` and
`group_id = is_zero.cum_sum()` — each row is tagged with the cumulative
count of zero-generation rows up to and including itself.  The accumulator
is the running count. -/
def assignGroups : ℕ → List Row → List (ℕ × Row)
  | _, [] => []
  | a, r :: rs =>
    let a' := if r.gen = 0 then a + 1 else a
    (a', r) :: assignGroups a' rs

/-- polars `mean` over a column with nulls: nulls are excluded; the mean of
an all-null (or empty) column is null. -/
def mean (ps : List (Option ℚ)) : Option ℚ :=
  match ps.filterMap id with
  | [] => none
  | v :: vs => some ((v :: vs).sum / ((v :: vs).length : ℚ))

/-- Lines 93–95: average `day_ahead_price` of the rows in group `g`. -/
def groupAvg (grouped : List (ℕ × Row)) (g : ℕ) : Option ℚ :=
  mean ((grouped.filter (fun p => p.1 == g)).map (fun p => p.2.price))

/-- polars `min` over a column with nulls: nulls are ignored; the min of an
all-null (or empty) column is null. -/
def optMin (l : List (Option ℚ)) : Option ℚ :=
  match l.filterMap id with
  | [] => none
  | x :: xs => some (xs.foldl min x)

/-- Lines 61–106: the body of the per-unit loop.  Input: the unit's
datetime-sorted joined rows.  Output: `none` when the unit is skipped
(all rounded generation zero, line 69), otherwise
`some (generation, marginal_price)` as appended to `results`.

The two inner `none` branches are unreachable in the script (a unit taken
from `unique()` has at least one row, and the filter to the maximum keeps
at least one row); they model polars returning null for an empty series. -/
def processUnit (rows : List Row) : Option (ℚ × Option ℚ) :=
  let rr := rows.map roundRow
  match smax (rr.map Row.gen) with
  | none => none
  | some mx =>
    if mx = 0 then none
    else
      match smin (rr.map Row.gen) with
      | none => none
      | some mn =>
        if 0 < mn then some (mx, some 0)
        else
          let grouped := assignGroups 0 rr
          let withAvg := grouped.map (fun p => (p.2, groupAvg grouped p.1))
          let atMax := withAvg.filter (fun p => decide (p.1.gen = mx))
          match smax (atMax.map (fun p => p.1.gen)) with
          | none => none
          | some g => some (g, optMin (atMax.map Prod.snd))

/-- One entry of `results` / one row of `marginal_results_df`. -/
structure MarginalResult where
  unit : String
  generation : ℚ
  marginal_price : Option ℚ
deriving Repr, DecidableEq

/-- Lines 57–106: build `results` from the per-unit series.  The input list
pairs each distinct unit name with its datetime-sorted joined rows (the
loop iterates `plant_production_df["unit"].unique()` and then filters and
sorts, so the names are pairwise distinct and every unit has rows). -/
def computeResults (units : List (String × List Row)) : List MarginalResult :=
  units.filterMap (fun p =>
    (processUnit p.2).map (fun q => ⟨p.1, q.1, q.2⟩))

/-- Ordering used by `sort("marginal_price")`: polars sorts nulls first by
default. -/
def mpLe (a b : Option ℚ) : Bool :=
  match a, b with
  | none, _ => true
  | some _, none => false
  | some x, some y => x ≤ y

/-- Line 112: `marginal_results_df.sort("marginal_price")` (a stable sort,
nulls first). -/
def sortResults (rs : List MarginalResult) : List MarginalResult :=
  List.insertionSort (fun a b => mpLe a.marginal_price b.marginal_price = true) rs

/-- polars `cum_sum`: running sums, inclusive of the current row; the
accumulator is the sum so far. -/
def cumSum (a : ℚ) : List ℚ → List ℚ
  | [] => []
  | g :: gs => (a + g) :: cumSum (a + g) gs

/-- Lines 112–114: the `cumulated_generation` column of the sorted result
frame. -/
def cumulatedGeneration (rs : List MarginalResult) : List ℚ :=
  cumSum 0 (rs.map MarginalResult.generation)

/-- Modelled from the spec (§4.3 step 5), for comparison with the source's
`assignGroups`: a run id that changes exactly when the zero/non-zero state
of the (already rounded) generation changes, so that rows share an id iff
they belong to the same maximal contiguous zero or non-zero run.  The
accumulator carries the previous row's zero-state and the current run id. -/
def specRunTag : Bool → ℕ → List Row → List (ℕ × Row)
  | _, _, [] => []
  | prevZero, a, r :: rs =>
    let z := decide (r.gen = 0)
    let a' := if z = prevZero then a else a + 1
    (a', r) :: specRunTag z a' rs

/-- Modelled from the spec: run ids for a whole series; the first row opens
run 0. -/
def specRuns (rows : List Row) : List (ℕ × Row) :=
  match rows with
  | [] => []
  | r :: rs => (0, r) :: specRunTag (decide (r.gen = 0)) 0 rs

/-- Modelled from the spec (§4.3 step 5): marginal price of an
intermittently dispatched unit computed with the spec's maximal-run
partition — the minimum per-run average price among the runs containing the
maximum rounded generation. -/
def specMarginal (rows : List Row) : Option ℚ :=
  let rr := rows.map roundRow
  match smax (rr.map Row.gen) with
  | none => none
  | some mx =>
    let grouped := specRuns rr
    let withAvg := grouped.map (fun p => (p.2, groupAvg grouped p.1))
    let atMax := withAvg.filter (fun p => decide (p.1.gen = mx))
    optMin (atMax.map Prod.snd)

/-- The worked example of spec §8: rounded generation `[0,0,100,100,0]`
with day-ahead prices `[10,12,50,55,8]`. -/
def exampleA : List Row :=
  [⟨0, some 10⟩, ⟨0, some 12⟩, ⟨100, some 50⟩, ⟨100, some 55⟩, ⟨0, some 8⟩]

/-! ### The computable `Rat.ceil` agrees with the mathematical ceiling -/

theorem ratCeil_eq (q : ℚ) : q.ceil = ⌈q⌉ := by
  rcases eq_or_ne q.den 1 with hd | hd
  · have hq : (q.num : ℚ) = q := Rat.coe_int_num_of_den_eq_one hd
    rw [Rat.ceil, if_pos hd]
    conv_rhs => rw [← hq, Int.ceil_intCast]
  · have hfl : Rat.floor q = ⌊q⌋ := by rw [Rat.floor_def', Rat.floor_def]
    have hne : ((⌊q⌋ : ℚ)) ≠ q := by
      intro h
      exact hd (h ▸ Rat.den_intCast ⌊q⌋)
    have hlt : (⌊q⌋ : ℚ) < q := lt_of_le_of_ne (Int.floor_le q) hne
    have h1 : ⌊q⌋ + 1 ≤ ⌈q⌉ := by
      have h2 : (⌊q⌋ : ℚ) < (⌈q⌉ : ℚ) := lt_of_lt_of_le hlt (Int.le_ceil q)
      exact Int.add_one_le_of_lt (by exact_mod_cast h2)
    have h2 : ⌈q⌉ ≤ ⌊q⌋ + 1 := Int.ceil_le_floor_add_one q
    have h3 : ⌈q⌉ = ⌊q⌋ + 1 := le_antisymm h2 h1
    rw [Rat.ceil, if_neg hd, h3, ← hfl, Rat.floor_def']

/-! ### Properties of the rounding step -/

theorem roundGen_concrete (g : ℚ) (z : ℤ) (h1 : (z : ℚ) - 1 < g / 50) (h2 : g / 50 ≤ z) :
    roundGen g = 50 * z := by
  rw [roundGen, ratCeil_eq, Int.ceil_eq_iff.mpr ⟨h1, h2⟩, mul_comm]

theorem roundGen_int_mul (g : ℚ) : ∃ k : ℤ, roundGen g = 50 * k :=
  ⟨(g / 50).ceil, by rw [roundGen, mul_comm]⟩

theorem le_roundGen (g : ℚ) : g ≤ roundGen g := by
  rw [roundGen, ratCeil_eq]
  have h : g / 50 ≤ (⌈g / 50⌉ : ℚ) := Int.le_ceil (g / 50)
  calc g = g / 50 * 50 := by ring
  _ ≤ (⌈g / 50⌉ : ℚ) * 50 := by nlinarith

theorem roundGen_le (g : ℚ) (z : ℤ) (h : g ≤ 50 * z) : roundGen g ≤ 50 * z := by
  rw [roundGen, ratCeil_eq]
  have h1 : g / 50 ≤ (z : ℚ) := by linarith
  have h2 : ⌈g / 50⌉ ≤ z := Int.ceil_le.mpr h1
  have h3 : (⌈g / 50⌉ : ℚ) ≤ (z : ℚ) := by exact_mod_cast h2
  nlinarith

theorem roundGen_nonneg (g : ℚ) (h : 0 ≤ g) : 0 ≤ roundGen g :=
  le_trans h (le_roundGen g)

theorem roundGen_0 : roundGen 0 = 0 := by
  have h := roundGen_concrete 0 0 (by norm_num) (by norm_num)
  norm_num at h
  exact h

theorem roundGen_1 : roundGen 1 = 50 := by
  have h := roundGen_concrete 1 1 (by norm_num) (by norm_num)
  norm_num at h
  exact h

theorem roundGen_30 : roundGen 30 = 50 := by
  have h := roundGen_concrete 30 1 (by norm_num) (by norm_num)
  norm_num at h
  exact h

theorem roundGen_49 : roundGen 49 = 50 := by
  have h := roundGen_concrete 49 1 (by norm_num) (by norm_num)
  norm_num at h
  exact h

theorem roundGen_50 : roundGen 50 = 50 := by
  have h := roundGen_concrete 50 1 (by norm_num) (by norm_num)
  norm_num at h
  exact h

theorem roundGen_51 : roundGen 51 = 100 := by
  have h := roundGen_concrete 51 2 (by norm_num) (by norm_num)
  norm_num at h
  exact h

theorem roundGen_99 : roundGen 99 = 100 := by
  have h := roundGen_concrete 99 2 (by norm_num) (by norm_num)
  norm_num at h
  exact h

theorem roundGen_100 : roundGen 100 = 100 := by
  have h := roundGen_concrete 100 2 (by norm_num) (by norm_num)
  norm_num at h
  exact h

/-! ### Series minimum / maximum -/

theorem smax_eq_none {l : List ℚ} : smax l = none ↔ l = [] := by
  cases l <;> simp [smax]

theorem smax_mem {l : List ℚ} {m : ℚ} (h : smax l = some m) : m ∈ l := by
  induction l with
  | nil => simp [smax] at h
  | cons x xs ih =>
    rw [smax] at h
    cases hx : smax xs with
    | none =>
      rw [hx] at h
      simp only [Option.some.injEq] at h
      subst h
      exact List.mem_cons_self x xs
    | some m' =>
      rw [hx] at h
      simp only [Option.some.injEq] at h
      rcases max_choice x m' with h1 | h1 <;> rw [h1] at h <;> subst h
      · exact List.mem_cons_self x xs
      · exact List.mem_cons_of_mem x (ih hx)

theorem le_smax {l : List ℚ} {m : ℚ} (h : smax l = some m) : ∀ x ∈ l, x ≤ m := by
  induction l generalizing m with
  | nil => simp [smax] at h
  | cons y ys ih =>
    rw [smax] at h
    intro x hx
    cases hy : smax ys with
    | none =>
      rw [hy] at h
      simp only [Option.some.injEq] at h
      subst h
      rcases List.mem_cons.mp hx with h2 | h2
      · exact h2.le
      · rw [smax_eq_none.mp hy] at h2
        simp at h2
    | some m' =>
      rw [hy] at h
      simp only [Option.some.injEq] at h
      subst h
      rcases List.mem_cons.mp hx with h2 | h2
      · rw [h2]
        exact le_max_left y m'
      · exact le_trans (ih hy x h2) (le_max_right y m')

theorem smin_eq_none {l : List ℚ} : smin l = none ↔ l = [] := by
  cases l <;> simp [smin]

theorem smin_mem {l : List ℚ} {m : ℚ} (h : smin l = some m) : m ∈ l := by
  induction l with
  | nil => simp [smin] at h
  | cons x xs ih =>
    rw [smin] at h
    cases hx : smin xs with
    | none =>
      rw [hx] at h
      simp only [Option.some.injEq] at h
      subst h
      exact List.mem_cons_self x xs
    | some m' =>
      rw [hx] at h
      simp only [Option.some.injEq] at h
      rcases min_choice x m' with h1 | h1 <;> rw [h1] at h <;> subst h
      · exact List.mem_cons_self x xs
      · exact List.mem_cons_of_mem x (ih hx)

theorem smin_le {l : List ℚ} {m : ℚ} (h : smin l = some m) : ∀ x ∈ l, m ≤ x := by
  induction l generalizing m with
  | nil => simp [smin] at h
  | cons y ys ih =>
    rw [smin] at h
    intro x hx
    cases hy : smin ys with
    | none =>
      rw [hy] at h
      simp only [Option.some.injEq] at h
      subst h
      rcases List.mem_cons.mp hx with h2 | h2
      · exact h2.ge
      · rw [smin_eq_none.mp hy] at h2
        simp at h2
    | some m' =>
      rw [hy] at h
      simp only [Option.some.injEq] at h
      subst h
      rcases List.mem_cons.mp hx with h2 | h2
      · rw [h2]
        exact min_le_left y m'
      · exact le_trans (min_le_right y m') (ih hy x h2)

/-! ### Group assignment, means, null-ignoring minimum -/

theorem assignGroups_map_snd (a : ℕ) (rows : List Row) :
    (assignGroups a rows).map Prod.snd = rows := by
  induction rows generalizing a with
  | nil => rfl
  | cons r rs ih => simp [assignGroups, ih]

theorem mem_assignGroups {a : ℕ} {rows : List Row} {p : ℕ × Row}
    (h : p ∈ assignGroups a rows) : p.2 ∈ rows := by
  have h2 := assignGroups_map_snd a rows
  rw [← h2]
  exact List.mem_map_of_mem Prod.snd h

theorem mean_none_cons (ps : List (Option ℚ)) : mean (none :: ps) = mean ps := by
  unfold mean
  simp

theorem mean_all_none {ps : List (Option ℚ)} (h : ∀ x ∈ ps, x = none) : mean ps = none := by
  have h2 : ps.filterMap id = [] := List.filterMap_eq_nil_iff.mpr (by intro a ha; simp [h a ha])
  unfold mean
  rw [h2]

theorem optMin_none_cons (l : List (Option ℚ)) : optMin (none :: l) = optMin l := by
  unfold optMin
  simp

theorem optMin_all_none {l : List (Option ℚ)} (h : ∀ x ∈ l, x = none) : optMin l = none := by
  have h2 : l.filterMap id = [] := List.filterMap_eq_nil_iff.mpr (by intro a ha; simp [h a ha])
  unfold optMin
  rw [h2]

/-! ### Inversion and forward lemmas for the per-unit estimator -/

theorem mem_rounded {rows : List Row} {x : ℚ} :
    x ∈ (rows.map roundRow).map Row.gen ↔ ∃ r ∈ rows, roundGen r.gen = x := by
  simp [List.mem_map, roundRow]

theorem processUnit_eq_some {rows : List Row} {g : ℚ} {mp : Option ℚ}
    (h : processUnit rows = some (g, mp)) :
    smax ((rows.map roundRow).map Row.gen) = some g ∧ g ≠ 0 := by
  simp only [processUnit] at h
  split at h
  · exact absurd h (by simp)
  next mx hmx =>
    split at h
    · exact absurd h (by simp)
    next h0 =>
      split at h
      · exact absurd h (by simp)
      next mn hmn =>
        split at h
        · simp only [Option.some.injEq, Prod.mk.injEq] at h
          obtain ⟨h1, _⟩ := h
          subst h1
          exact ⟨hmx, h0⟩
        · split at h
          · exact absurd h (by simp)
          next g' hsg =>
            simp only [Option.some.injEq, Prod.mk.injEq] at h
            obtain ⟨h1, _⟩ := h
            subst h1
            have hmem := smax_mem hsg
            simp only [List.mem_map] at hmem
            obtain ⟨p, hp, hpg⟩ := hmem
            have hfil := List.mem_filter.mp hp
            have heq : p.1.gen = mx := of_decide_eq_true hfil.2
            rw [← hpg, heq]
            exact ⟨hmx, h0⟩

theorem processUnit_baseload {rows : List Row} {mx mn : ℚ}
    (hmx : smax ((rows.map roundRow).map Row.gen) = some mx) (h0 : mx ≠ 0)
    (hmn : smin ((rows.map roundRow).map Row.gen) = some mn) (hpos : 0 < mn) :
    processUnit rows = some (mx, some 0) := by
  simp only [processUnit, hmx, hmn, if_neg h0, if_pos hpos]

theorem processUnit_all_zero {rows : List Row} (h : ∀ r ∈ rows, roundGen r.gen = 0) :
    processUnit rows = none := by
  cases hmx : smax ((rows.map roundRow).map Row.gen) with
  | none => simp only [processUnit, hmx]
  | some mx =>
    have hmem := smax_mem hmx
    rw [mem_rounded] at hmem
    obtain ⟨r, hr, hrg⟩ := hmem
    have hz : mx = 0 := by rw [← hrg]; exact h r hr
    simp only [processUnit, hmx, if_pos hz]

/-! ### Running sums -/

theorem cumSum_cons (a g : ℚ) (gs : List ℚ) :
    cumSum a (g :: gs) = (a + g) :: cumSum (a + g) gs := rfl

theorem cumSum_getLast (a : ℚ) (l : List ℚ) (h : l ≠ []) :
    (cumSum a l).getLast? = some (a + l.sum) := by
  induction l generalizing a with
  | nil => exact absurd rfl h
  | cons g gs ih =>
    cases gs with
    | nil => simp [cumSum]
    | cons g' gs' =>
      rw [cumSum_cons, cumSum_cons, List.getLast?_cons_cons, ← cumSum_cons,
        ih (a + g) (by simp)]
      congr 1
      simp only [List.sum_cons]
      ring

theorem cumSum_chain_le (a : ℚ) (l : List ℚ) (h : ∀ x ∈ l, 0 ≤ x) :
    List.Chain' (· ≤ ·) (cumSum a l) := by
  induction l generalizing a with
  | nil => simp [cumSum]
  | cons g gs ih =>
    rw [cumSum_cons, List.chain'_cons']
    refine ⟨?_, ih (a + g) (fun x hx => h x (List.mem_cons_of_mem g hx))⟩
    intro y hy
    cases gs with
    | nil => simp [cumSum] at hy
    | cons g' gs' =>
      rw [cumSum_cons] at hy
      simp only [List.head?_cons, Option.mem_def, Option.some.injEq] at hy
      have hg' := h g' (by simp)
      linarith [hy]

theorem cumSum_chain_lt (a : ℚ) (l : List ℚ) (h : ∀ x ∈ l, 0 < x) :
    List.Chain' (· < ·) (cumSum a l) := by
  induction l generalizing a with
  | nil => simp [cumSum]
  | cons g gs ih =>
    rw [cumSum_cons, List.chain'_cons']
    refine ⟨?_, ih (a + g) (fun x hx => h x (List.mem_cons_of_mem g hx))⟩
    intro y hy
    cases gs with
    | nil => simp [cumSum] at hy
    | cons g' gs' =>
      rw [cumSum_cons] at hy
      simp only [List.head?_cons, Option.mem_def, Option.some.injEq] at hy
      have hg' := h g' (by simp)
      linarith [hy]

/-! ### The result set -/

theorem mem_computeResults {units : List (String × List Row)} {res : MarginalResult}
    (h : res ∈ computeResults units) :
    ∃ p ∈ units, processUnit p.2 = some (res.generation, res.marginal_price) ∧
      res.unit = p.1 := by
  simp only [computeResults, List.mem_filterMap] at h
  obtain ⟨p, hp, hmap⟩ := h
  rw [Option.map_eq_some'] at hmap
  obtain ⟨q, hq, hres⟩ := hmap
  subst hres
  exact ⟨p, hp, by rw [hq], rfl⟩

theorem result_gen_mul50 {units : List (String × List Row)}
    (hnn : ∀ p ∈ units, ∀ r ∈ p.2, 0 ≤ r.gen) :
    ∀ res ∈ computeResults units, ∃ k : ℕ, 1 ≤ k ∧ res.generation = 50 * k := by
  intro res hres
  obtain ⟨p, hp, hpu, _⟩ := mem_computeResults hres
  obtain ⟨hsmax, hne⟩ := processUnit_eq_some hpu
  have hmem := smax_mem hsmax
  rw [mem_rounded] at hmem
  obtain ⟨r, hr, hrg⟩ := hmem
  obtain ⟨k, hk⟩ := roundGen_int_mul r.gen
  have h0 : 0 ≤ roundGen r.gen := roundGen_nonneg _ (hnn p hp r hr)
  have hkpos : 0 < k := by
    rcases lt_or_le 0 k with hc | hc
    · exact hc
    · exfalso
      have hle : (50 : ℚ) * (k : ℚ) ≤ 0 := by
        have hc' : (k : ℚ) ≤ 0 := by exact_mod_cast hc
        nlinarith
      have hz : roundGen r.gen = 0 := le_antisymm (hk ▸ hle) h0
      rw [hrg] at hz
      exact hne hz
  refine ⟨k.toNat, by omega, ?_⟩
  rw [← hrg, hk]
  congr 1
  rw [show ((k.toNat : ℕ) : ℚ) = (k : ℚ) by exact_mod_cast Int.toNat_of_nonneg hkpos.le]

theorem result_gen_ge50 {units : List (String × List Row)}
    (hnn : ∀ p ∈ units, ∀ r ∈ p.2, 0 ≤ r.gen) :
    ∀ res ∈ computeResults units, 50 ≤ res.generation := by
  intro res hres
  obtain ⟨k, hk1, hk2⟩ := result_gen_mul50 hnn res hres
  rw [hk2]
  have hk' : (1 : ℚ) ≤ (k : ℚ) := by exact_mod_cast hk1
  nlinarith

theorem sortResults_perm (rs : List MarginalResult) : (sortResults rs).Perm rs :=
  List.perm_insertionSort _ rs

theorem computeResults_unit_sublist (units : List (String × List Row)) :
    ((computeResults units).map MarginalResult.unit).Sublist (units.map Prod.fst) := by
  induction units with
  | nil => simp [computeResults]
  | cons p ps ih =>
    simp only [computeResults, List.filterMap_cons, List.map_cons]
    cases h : processUnit p.2 with
    | none =>
      simp only [h, Option.map_none']
      exact ih.cons p.1
    | some q =>
      simp only [h, Option.map_some', List.map_cons]
      exact ih.cons₂ p.1

theorem smax_eq_of_all_eq {l : List ℚ} {x : ℚ} (hne : l ≠ []) (h : ∀ y ∈ l, y = x) :
    smax l = some x := by
  induction l with
  | nil => exact absurd rfl hne
  | cons a as ih =>
    rw [smax]
    cases has : smax as with
    | none => rw [h a (List.mem_cons_self a as)]
    | some m =>
      have hm : m = x := h m (List.mem_cons_of_mem a (smax_mem has))
      have ha : a = x := h a (List.mem_cons_self a as)
      show some (max a m) = some x
      rw [ha, hm, max_self]

/-! ### Claims -/

/-- C1: the spec's worked example claims that for rounded generation
`[0,0,100,100,0]` with prices `[10,12,50,55,8]` the estimator returns
`marginal_price = 52.5` and `generation = 100`.  The code actually returns
`marginal_price = 39`: its `cum_sum(is_zero)` grouping puts the second zero
row into the same group as the following `[100,100]` rows, so the averaged
prices are `10`, `(12+50+55)/3 = 39`, `8` instead of the spec's `11`,
`52.5`, `8`.  The spec's own rule (maximal zero/non-zero runs, modelled by
`specMarginal`) does give `52.5`. -/
theorem C1_example_marginal_price :
    processUnit exampleA = some (100, some 39) ∧
    specMarginal exampleA = some (105 / 2) ∧
    (39 : ℚ) ≠ 105 / 2 := by
  refine ⟨?_, ?_, by norm_num⟩
  · norm_num [processUnit, exampleA, roundRow, roundGen_0, roundGen_100, smax, smin,
      assignGroups, groupAvg, mean, optMin, List.filter, List.filterMap]
  · norm_num [specMarginal, exampleA, roundRow, roundGen_0, roundGen_100, smax, specRuns,
      specRunTag, groupAvg, mean, optMin, List.filter, List.filterMap]

/-- C2: the claim says the grouping partitions the series into maximal
contiguous runs of zero / non-zero rounded generation, a new run starting
exactly at state changes.  The code's `group_id = cum_sum(is_zero)` does
not: on the series `[0,0,100,100,0]` it yields ids `[1,2,2,2,3]` — the two
leading zero rows (no state change) get different ids, and the second zero
row shares its id with the following non-zero rows.  Hence consecutive rows
do not satisfy "same id iff same zero-state". -/
theorem C2_grouping_not_maximal_runs :
    (assignGroups 0 (exampleA.map roundRow)).map Prod.fst = [1, 2, 2, 2, 3] ∧
    ¬ List.Chain' (fun p q => (p.1 = q.1 ↔ (p.2.gen = 0 ↔ q.2.gen = 0)))
        (assignGroups 0 (exampleA.map roundRow)) := by
  constructor
  · norm_num [exampleA, roundRow, roundGen_0, roundGen_100, assignGroups]
  · norm_num [exampleA, roundRow, roundGen_0, roundGen_100, assignGroups, List.chain'_cons]

/-- C3: the claim says the returned marginal price is the minimum per-run
average price over the maximal zero/non-zero runs containing the maximum
rounded generation.  On the series `[0,100,100]` with prices `[0,100,100]`
the spec's rule (`specMarginal`) gives `100` (run `[100,100]` averages
`100`), but the code groups all three rows together
(`cum_sum(is_zero) = [1,1,1]`) and returns `200/3`. -/
theorem C3_min_avg_over_runs_diverges :
    processUnit [⟨0, some 0⟩, ⟨100, some 100⟩, ⟨100, some 100⟩] = some (100, some (200 / 3)) ∧
    specMarginal [⟨0, some 0⟩, ⟨100, some 100⟩, ⟨100, some 100⟩] = some 100 ∧
    (200 / 3 : ℚ) ≠ 100 := by
  refine ⟨?_, ?_, by norm_num⟩
  · norm_num [processUnit, roundRow, roundGen_0, roundGen_100, smax, smin,
      assignGroups, groupAvg, mean, optMin, List.filter, List.filterMap]
  · norm_num [specMarginal, roundRow, roundGen_0, roundGen_100, smax, specRuns,
      specRunTag, groupAvg, mean, optMin, List.filter, List.filterMap]

/-- C4: a unit whose rounded generation is nonzero at every row (with
non-negative raw generation, per the data model) takes the always-dispatched
branch: the estimator returns `marginal_price = 0` and `generation` equal to
the maximum rounded generation. -/
theorem C4_baseload_marginal_zero (rows : List Row) (mx : ℚ)
    (hmx : smax ((rows.map roundRow).map Row.gen) = some mx)
    (hnn : ∀ r ∈ rows, 0 ≤ r.gen)
    (hnz : ∀ r ∈ rows, roundGen r.gen ≠ 0) :
    processUnit rows = some (mx, some 0) := by
  have hne : (rows.map roundRow).map Row.gen ≠ [] := by
    intro hcon
    rw [hcon] at hmx
    simp [smax] at hmx
  cases hmn : smin ((rows.map roundRow).map Row.gen) with
  | none => exact absurd (smin_eq_none.mp hmn) hne
  | some mn =>
    have hmem := smin_mem hmn
    rw [mem_rounded] at hmem
    obtain ⟨r, hr, hrg⟩ := hmem
    have h1 : 0 ≤ mn := hrg ▸ roundGen_nonneg _ (hnn r hr)
    have h2 : mn ≠ 0 := hrg ▸ hnz r hr
    have hpos : 0 < mn := lt_of_le_of_ne h1 (Ne.symm h2)
    have h0 : mx ≠ 0 := by
      have hmemx := smax_mem hmx
      rw [mem_rounded] at hmemx
      obtain ⟨r', hr', hrg'⟩ := hmemx
      exact hrg' ▸ hnz r' hr'
    exact processUnit_baseload hmx h0 hmn hpos

/-- Witness for C4: the two-row unit `[30, 100]` (rounded `[50, 100]`) is
always dispatched and gets `(100, marginal 0)`. -/
theorem C4_baseload_marginal_zero_witness :
    smax ((([⟨30, some 10⟩, ⟨100, none⟩] : List Row).map roundRow).map Row.gen) = some 100 ∧
    (∀ r ∈ ([⟨30, some 10⟩, ⟨100, none⟩] : List Row), 0 ≤ r.gen) ∧
    (∀ r ∈ ([⟨30, some 10⟩, ⟨100, none⟩] : List Row), roundGen r.gen ≠ 0) ∧
    processUnit [⟨30, some 10⟩, ⟨100, none⟩] = some (100, some 0) := by
  have hmx : smax ((([⟨30, some 10⟩, ⟨100, none⟩] : List Row).map roundRow).map Row.gen)
      = some 100 := by
    norm_num [roundRow, roundGen_30, roundGen_100, smax]
  have hnn : ∀ r ∈ ([⟨30, some 10⟩, ⟨100, none⟩] : List Row), 0 ≤ r.gen := by
    intro r hr
    rcases List.mem_cons.mp hr with rfl | hr
    · norm_num
    · rcases List.mem_cons.mp hr with rfl | hr
      · norm_num
      · simp at hr
  have hnz : ∀ r ∈ ([⟨30, some 10⟩, ⟨100, none⟩] : List Row), roundGen r.gen ≠ 0 := by
    intro r hr
    rcases List.mem_cons.mp hr with rfl | hr
    · norm_num [roundGen_30]
    · rcases List.mem_cons.mp hr with rfl | hr
      · norm_num [roundGen_100]
      · simp at hr
  exact ⟨hmx, hnn, hnz, C4_baseload_marginal_zero _ 100 hmx hnn hnz⟩

/-- Counterexample to C5: a unit whose single data point has generation `0`
is not handled as baseload — it is dropped by the all-zero skip (line 69)
and never reaches the always-dispatched branch, so it does not get
`marginal_price = 0`. -/
theorem C5_single_zero_point_dropped :
    processUnit [⟨(0 : ℚ), some 10⟩] = none ∧
    (none : Option (ℚ × Option ℚ)) ≠ some (roundGen 0, some 0) := by
  constructor
  · norm_num [processUnit, roundRow, roundGen_0, smax]
  · simp

/-- C5 (amended): a unit with exactly one data point of non-negative
generation is handled as baseload (marginal price `0`, generation its
rounded value) exactly when its rounded generation is nonzero; when the
single point rounds to zero the unit is dropped instead. -/
theorem C5_single_point (r : Row) (hnn : 0 ≤ r.gen) :
    processUnit [r] = if roundGen r.gen = 0 then none else some (roundGen r.gen, some 0) := by
  rcases eq_or_ne (roundGen r.gen) 0 with hz | hz
  · rw [if_pos hz]
    refine processUnit_all_zero ?_
    intro x hx
    rcases List.mem_singleton.mp hx with rfl
    exact hz
  · rw [if_neg hz]
    have hmx : smax (([r].map roundRow).map Row.gen) = some (roundGen r.gen) := by
      simp [smax, roundRow]
    have hmn : smin (([r].map roundRow).map Row.gen) = some (roundGen r.gen) := by
      simp [smin, roundRow]
    exact processUnit_baseload hmx hz hmn
      (lt_of_le_of_ne (roundGen_nonneg _ hnn) (Ne.symm hz))

/-- Witness for C5 (amended): the single point `30` rounds to `50 ≠ 0` and
yields the baseload result `(50, marginal 0)`. -/
theorem C5_single_point_witness :
    (0 : ℚ) ≤ 30 ∧
    processUnit [⟨(30 : ℚ), some 10⟩] =
      if roundGen (30 : ℚ) = 0 then none else some (roundGen 30, some 0) :=
  ⟨by norm_num, C5_single_point ⟨30, some 10⟩ (by norm_num)⟩

/-- C6: with pairwise-distinct unit names (the loop iterates
`unique()` values), every unit name appears at most once in the result set,
and a unit whose rounded generation is zero at every row appears in no
result at all. -/
theorem C6_unique_units_zero_dropped (units : List (String × List Row))
    (hnd : (units.map Prod.fst).Nodup) :
    ((computeResults units).map MarginalResult.unit).Nodup ∧
    ∀ p ∈ units, (∀ r ∈ p.2, roundGen r.gen = 0) →
      ∀ res ∈ computeResults units, res.unit ≠ p.1 := by
  constructor
  · exact (computeResults_unit_sublist units).nodup hnd
  · intro p hp hz res hres hcon
    obtain ⟨p', hp', hpu, hunit⟩ := mem_computeResults hres
    have hpp : p' = p := List.inj_on_of_nodup_map hnd hp' hp (by rw [← hunit, hcon])
    subst hpp
    rw [processUnit_all_zero hz] at hpu
    exact Option.noConfusion hpu

/-- Witness for C6: two distinct units, one of which is all-zero; the
result unit names are nodup. -/
theorem C6_unique_units_zero_dropped_witness :
    ((([("a", [⟨30, some 10⟩]), ("z", [⟨0, some 1⟩])] : List (String × List Row)).map
        Prod.fst).Nodup) ∧
    ((computeResults [("a", [⟨30, some 10⟩]), ("z", [⟨0, some 1⟩])]).map
        MarginalResult.unit).Nodup := by
  have hnd : (([("a", [⟨30, some 10⟩]), ("z", [⟨0, some 1⟩])] :
      List (String × List Row)).map Prod.fst).Nodup := by
    simp
  exact ⟨hnd, (C6_unique_units_zero_dropped _ hnd).1⟩

/-- C7: with non-negative input generation (the data model), after sorting
the results by marginal price the running `cumulated_generation` column is
non-decreasing, and (when any results exist) its last entry equals the sum
of all units' generation values. -/
theorem C7_cumulated_generation (units : List (String × List Row))
    (hnn : ∀ p ∈ units, ∀ r ∈ p.2, 0 ≤ r.gen) :
    List.Chain' (· ≤ ·) (cumulatedGeneration (sortResults (computeResults units))) ∧
    (computeResults units ≠ [] →
      (cumulatedGeneration (sortResults (computeResults units))).getLast? =
        some (((computeResults units).map MarginalResult.generation).sum)) := by
  have hperm := sortResults_perm (computeResults units)
  constructor
  · apply cumSum_chain_le
    intro x hx
    rw [List.mem_map] at hx
    obtain ⟨res, hres, hgen⟩ := hx
    have hres' : res ∈ computeResults units := hperm.mem_iff.mp hres
    have h50 := result_gen_ge50 hnn res hres'
    rw [← hgen]
    linarith
  · intro hne
    have hne2 : sortResults (computeResults units) ≠ [] := by
      intro hcon
      apply hne
      have hlen := hperm.length_eq
      rw [hcon] at hlen
      exact List.length_eq_zero.mp hlen.symm
    have hne3 : (sortResults (computeResults units)).map MarginalResult.generation ≠ [] := by
      simpa using hne2
    rw [cumulatedGeneration, cumSum_getLast _ _ hne3, zero_add]
    congr 1
    exact (hperm.map MarginalResult.generation).sum_eq

/-- Witness for C7: two baseload units `a` (50 MW) and `b` (100 MW); the
cumulated column is `[50, 150]`, non-decreasing with last entry the total. -/
theorem C7_cumulated_generation_witness :
    (∀ p ∈ ([("a", [⟨30, some 10⟩]), ("b", [⟨100, some 20⟩])] : List (String × List Row)),
      ∀ r ∈ p.2, 0 ≤ r.gen) ∧
    List.Chain' (· ≤ ·) (cumulatedGeneration (sortResults (computeResults
      [("a", [⟨30, some 10⟩]), ("b", [⟨100, some 20⟩])]))) ∧
    (cumulatedGeneration (sortResults (computeResults
      [("a", [⟨30, some 10⟩]), ("b", [⟨100, some 20⟩])]))).getLast? =
      some (((computeResults [("a", [⟨30, some 10⟩]), ("b", [⟨100, some 20⟩])]).map
        MarginalResult.generation).sum) := by
  have hnn : ∀ p ∈ ([("a", [⟨30, some 10⟩]), ("b", [⟨100, some 20⟩])] :
      List (String × List Row)), ∀ r ∈ p.2, 0 ≤ r.gen := by
    intro p hp r hr
    rcases List.mem_cons.mp hp with rfl | hp
    · rcases List.mem_cons.mp hr with rfl | hr
      · norm_num
      · simp at hr
    · rcases List.mem_cons.mp hp with rfl | hp
      · rcases List.mem_cons.mp hr with rfl | hr
        · norm_num
        · simp at hr
      · simp at hp
  have hev : computeResults [("a", [⟨30, some 10⟩]), ("b", [⟨100, some 20⟩])] =
      [⟨"a", 50, some 0⟩, ⟨"b", 100, some 0⟩] := by
    norm_num [computeResults, List.filterMap, processUnit, roundRow, roundGen_30,
      roundGen_100, smax, smin]
  have hne : computeResults [("a", [⟨30, some 10⟩]), ("b", [⟨100, some 20⟩])] ≠ [] := by
    rw [hev]
    simp
  exact ⟨hnn, (C7_cumulated_generation _ hnn).1, (C7_cumulated_generation _ hnn).2 hne⟩

/-- C8: the rounding step maps each value up to the nearest multiple of 50:
the result is an integer multiple of 50, is at least the input, and is the
least multiple of 50 with that property; the table
`{0,1,49,50,51,99,100} ↦ {0,50,50,50,100,100,100}` holds. -/
theorem C8_rounding_up_to_50 :
    (∀ g : ℚ, ∃ k : ℤ, roundGen g = 50 * k) ∧
    (∀ g : ℚ, g ≤ roundGen g) ∧
    (∀ (g : ℚ) (z : ℤ), g ≤ 50 * z → roundGen g ≤ 50 * z) ∧
    (roundGen 0 = 0 ∧ roundGen 1 = 50 ∧ roundGen 49 = 50 ∧ roundGen 50 = 50 ∧
      roundGen 51 = 100 ∧ roundGen 99 = 100 ∧ roundGen 100 = 100) :=
  ⟨roundGen_int_mul, le_roundGen, roundGen_le,
    roundGen_0, roundGen_1, roundGen_49, roundGen_50, roundGen_51, roundGen_99, roundGen_100⟩

/-- Witness for C8: the minimality clause applied at `g = 1`, `z = 1`. -/
theorem C8_rounding_up_to_50_witness :
    (1 : ℚ) ≤ 50 * ((1 : ℤ) : ℚ) ∧ roundGen 1 ≤ 50 * ((1 : ℤ) : ℚ) :=
  ⟨by norm_num, C8_rounding_up_to_50.2.2.1 1 1 (by norm_num)⟩

/-- Counterexample to C9: on the series `[100, 0, 100]` with prices
`[null, 5, 7]`, group `0` (containing the max-generation first row) has all
prices missing, so its average is null — yet the returned marginal price is
`6`, not null: the final `min` ignores null averages, so the null does not
propagate. -/
theorem C9_null_average_not_propagated :
    (assignGroups 0 (([⟨100, none⟩, ⟨0, some 5⟩, ⟨100, some 7⟩] : List Row).map
        roundRow)).map Prod.fst = [0, 1, 1] ∧
    groupAvg (assignGroups 0 (([⟨100, none⟩, ⟨0, some 5⟩, ⟨100, some 7⟩] : List Row).map
        roundRow)) 0 = none ∧
    processUnit [⟨100, none⟩, ⟨0, some 5⟩, ⟨100, some 7⟩] = some (100, some 6) ∧
    (some (6 : ℚ) : Option ℚ) ≠ none := by
  refine ⟨?_, ?_, ?_, by simp⟩
  · norm_num [roundRow, roundGen_0, roundGen_100, assignGroups]
  · norm_num [roundRow, roundGen_0, roundGen_100, assignGroups, groupAvg, mean,
      List.filter, List.filterMap]
  · norm_num [processUnit, roundRow, roundGen_0, roundGen_100, smax, smin,
      assignGroups, groupAvg, mean, optMin, List.filter, List.filterMap]

/-- C9 (amended): missing prices are excluded from the per-group mean (not
counted as zero) and an all-missing group has a null average; but that null
propagates to the unit's marginal price only when every price of the unit is
missing (the final `min` ignores nulls): an intermittently dispatched unit
with no matching prices at all gets a null marginal price. -/
theorem C9_missing_prices_handling :
    (∀ ps : List (Option ℚ), mean (none :: ps) = mean ps) ∧
    (∀ ps : List (Option ℚ), (∀ x ∈ ps, x = none) → mean ps = none) ∧
    (∀ l : List (Option ℚ), optMin (none :: l) = optMin l) ∧
    (∀ (rows : List Row) (mx : ℚ),
      smax ((rows.map roundRow).map Row.gen) = some mx → mx ≠ 0 →
      (∃ r ∈ rows, roundGen r.gen = 0) →
      (∀ r ∈ rows, r.price = none) →
      processUnit rows = some (mx, none)) := by
  refine ⟨mean_none_cons, fun ps h => mean_all_none h, optMin_none_cons, ?_⟩
  intro rows mx hmx h0 hzero hnone
  have hne : (rows.map roundRow).map Row.gen ≠ [] := by
    intro hcon
    rw [hcon] at hmx
    simp [smax] at hmx
  obtain ⟨r0, hr0, hr0z⟩ := hzero
  have h0mem : (0 : ℚ) ∈ (rows.map roundRow).map Row.gen := mem_rounded.mpr ⟨r0, hr0, hr0z⟩
  cases hmn : smin ((rows.map roundRow).map Row.gen) with
  | none => exact absurd (smin_eq_none.mp hmn) hne
  | some mn =>
    have hnpos : ¬ 0 < mn := not_lt.mpr (smin_le hmn 0 h0mem)
    have hmxmem : mx ∈ (rows.map roundRow).map Row.gen := smax_mem hmx
    have hAvgNone : ∀ g : ℕ, groupAvg (assignGroups 0 (rows.map roundRow)) g = none := by
      intro g
      apply mean_all_none
      intro x hx
      rw [List.mem_map] at hx
      obtain ⟨q, hq, hqx⟩ := hx
      have hmem2 : q.2 ∈ rows.map roundRow := mem_assignGroups (List.mem_filter.mp hq).1
      rw [List.mem_map] at hmem2
      obtain ⟨r, hr, hrq⟩ := hmem2
      rw [← hqx, ← hrq]
      simpa [roundRow] using hnone r hr
    simp only [processUnit, hmx, hmn, if_neg h0, if_neg hnpos]
    set grouped := assignGroups 0 (rows.map roundRow) with hgset
    set withAvg := grouped.map (fun p => (p.2, groupAvg grouped p.1)) with hwset
    set atMax := withAvg.filter (fun p => decide (p.1.gen = mx)) with haset
    have hAllmx : ∀ y ∈ atMax.map (fun p => p.1.gen), y = mx := by
      intro y hy
      rw [List.mem_map] at hy
      obtain ⟨p, hp, hpy⟩ := hy
      rw [← hpy]
      exact of_decide_eq_true (List.mem_filter.mp hp).2
    have hatne : atMax.map (fun p => p.1.gen) ≠ [] := by
      rw [List.mem_map] at hmxmem
      obtain ⟨rr0, hrr0, hrr0g⟩ := hmxmem
      have hsnd : rr0 ∈ grouped.map Prod.snd := by
        rw [hgset, assignGroups_map_snd]
        exact hrr0
      rw [List.mem_map] at hsnd
      obtain ⟨q, hq, hq2⟩ := hsnd
      have hw : (q.2, groupAvg grouped q.1) ∈ withAvg := by
        rw [hwset]
        exact List.mem_map_of_mem _ hq
      have hf : (q.2, groupAvg grouped q.1) ∈ atMax := by
        rw [haset]
        refine List.mem_filter.mpr ⟨hw, ?_⟩
        have hqg : q.2.gen = mx := by rw [hq2, hrr0g]
        exact decide_eq_true hqg
      intro hcon
      have hmem3 := List.mem_map_of_mem (fun p => p.1.gen) hf
      rw [hcon] at hmem3
      simp at hmem3
    rw [smax_eq_of_all_eq hatne hAllmx]
    have hoptnone : optMin (atMax.map Prod.snd) = none := by
      apply optMin_all_none
      intro x hx
      rw [List.mem_map] at hx
      obtain ⟨p, hp, hpx⟩ := hx
      have hw := (List.mem_filter.mp hp).1
      rw [hwset, List.mem_map] at hw
      obtain ⟨q, hq, hqp⟩ := hw
      rw [← hpx, ← hqp]
      exact hAvgNone q.1
    rw [hoptnone]

/-- Witness for C9 (amended): the intermittent unit `[0, 100]` with all
prices missing gets a null marginal price. -/
theorem C9_missing_prices_handling_witness :
    smax ((([⟨0, none⟩, ⟨100, none⟩] : List Row).map roundRow).map Row.gen) = some 100 ∧
    (100 : ℚ) ≠ 0 ∧
    (∃ r ∈ ([⟨0, none⟩, ⟨100, none⟩] : List Row), roundGen r.gen = 0) ∧
    (∀ r ∈ ([⟨0, none⟩, ⟨100, none⟩] : List Row), r.price = none) ∧
    processUnit [⟨0, none⟩, ⟨100, none⟩] = some (100, none) := by
  have h1 : smax ((([⟨0, none⟩, ⟨100, none⟩] : List Row).map roundRow).map Row.gen)
      = some 100 := by
    norm_num [roundRow, roundGen_0, roundGen_100, smax]
  have h3 : ∃ r ∈ ([⟨0, none⟩, ⟨100, none⟩] : List Row), roundGen r.gen = 0 :=
    ⟨⟨0, none⟩, by simp, roundGen_0⟩
  have h4 : ∀ r ∈ ([⟨0, none⟩, ⟨100, none⟩] : List Row), r.price = none := by
    intro r hr
    rcases List.mem_cons.mp hr with rfl | hr
    · rfl
    · rcases List.mem_cons.mp hr with rfl | hr
      · rfl
      · simp at hr
  exact ⟨h1, by norm_num, h3, h4,
    C9_missing_prices_handling.2.2.2 _ 100 h1 (by norm_num) h3 h4⟩

/-- C10: with non-negative input generation, every result's generation is a
positive multiple of 50 (hence at least 50), so the cumulated generation
along the sorted order is strictly increasing. -/
theorem C10_strictly_increasing (units : List (String × List Row))
    (hnn : ∀ p ∈ units, ∀ r ∈ p.2, 0 ≤ r.gen) :
    (∀ res ∈ computeResults units, ∃ k : ℕ, 1 ≤ k ∧ res.generation = 50 * k) ∧
    List.Chain' (· < ·) (cumulatedGeneration (sortResults (computeResults units))) := by
  refine ⟨result_gen_mul50 hnn, ?_⟩
  apply cumSum_chain_lt
  intro x hx
  rw [List.mem_map] at hx
  obtain ⟨res, hres, hgen⟩ := hx
  have hres' := (sortResults_perm _).mem_iff.mp hres
  have h50 := result_gen_ge50 hnn res hres'
  rw [← hgen]
  linarith

/-- Witness for C10: the single unit `c` with raw generation `1` rounds to
`50 = 50·1`; the cumulated column `[50]` is strictly increasing. -/
theorem C10_strictly_increasing_witness :
    (∀ p ∈ ([("c", [⟨1, some 5⟩])] : List (String × List Row)), ∀ r ∈ p.2, 0 ≤ r.gen) ∧
    (∀ res ∈ computeResults [("c", [⟨1, some 5⟩])], ∃ k : ℕ, 1 ≤ k ∧ res.generation = 50 * k) ∧
    List.Chain' (· < ·)
      (cumulatedGeneration (sortResults (computeResults [("c", [⟨1, some 5⟩])]))) := by
  have hnn : ∀ p ∈ ([("c", [⟨1, some 5⟩])] : List (String × List Row)),
      ∀ r ∈ p.2, 0 ≤ r.gen := by
    intro p hp r hr
    rcases List.mem_cons.mp hp with rfl | hp
    · rcases List.mem_cons.mp hr with rfl | hr
      · norm_num
      · simp at hr
    · simp at hp
  exact ⟨hnn, (C10_strictly_increasing _ hnn).1, (C10_strictly_increasing _ hnn).2⟩

end TradingExample
